import Mathlib

/-!
Verification development for a repository of finite-difference simulation
notebooks (1-D/2-D linear convection, 2-D acoustic seismic modelling, FWI).

The notebooks build symbolic PDEs (`Eq(u.dt + c*u.dxl)`,
`model.m * u.dt2 - u.laplace + model.damp * u.dt`), solve them for the
forward time level (`solve(eq, u.forward)`), and hand the resulting
update stencil, together with source-injection and receiver-interpolation
terms, to an external code-generation framework which executes the
time-marching loop.  Here the discretized equations and stencils are
embedded over `ℚ` (exact arithmetic), and the time-marching engine — whose
numeric loop is supplied by the external framework, not by code in this
repository — is modelled from the specification's design description.
-/

/-! ## 1-D linear convection (notebook `1-D Convection`)

`eq = Eq(u.dt + c*u.dxl)` with forward time difference
`u.dt = (u(t+dt,x) - u(t,x))/dt` and left (backward) space difference
`u.dxl = (u(t,x) - u(t,x-h))/h`. -/

/-- Left-hand side of the discretized 1-D convection equation
`u.dt + c*u.dxl`, as a function of the forward value `uF`, the current
value `uC` and the left neighbour `uL`. -/
def convPde (c dt h uF uC uL : ℚ) : ℚ :=
  (uF - uC) / dt + c * ((uC - uL) / h)

/-- The stencil obtained by solving `convPde = 0` for the forward value
(`stencil = solve(eq, u.forward)` in the notebook). -/
def convStencil (c dt h uC uL : ℚ) : ℚ :=
  uC - c * dt / h * (uC - uL)

/-- One application of the 1-D convection update `Eq(u.forward, stencil[0])`
over a field indexed by `ℤ`. -/
def convStep (c dt h : ℚ) (u : ℤ → ℚ) : ℤ → ℚ :=
  fun x => convStencil c dt h (u x) (u (x - 1))

/-- Running the 1-D convection update for `n` timesteps. -/
def convRun (c dt h : ℚ) (u0 : ℤ → ℚ) : ℕ → ℤ → ℚ
  | 0 => u0
  | n + 1 => convStep c dt h (convRun c dt h u0 n)

/-! ## 2-D linear convection (notebook `2-D Linear Convection`)

`eq = Eq(u.dt + c*u.dxl + c*u.dyl)`. -/

/-- Left-hand side of the discretized 2-D convection equation
`u.dt + c*u.dxl + c*u.dyl`. -/
def conv2Pde (c dt hx hy uF uC uLx uLy : ℚ) : ℚ :=
  (uF - uC) / dt + c * ((uC - uLx) / hx) + c * ((uC - uLy) / hy)

/-- The stencil obtained by solving `conv2Pde = 0` for the forward value. -/
def conv2Stencil (c dt hx hy uC uLx uLy : ℚ) : ℚ :=
  uC - c * dt / hx * (uC - uLx) - c * dt / hy * (uC - uLy)

/-! ## 2-D acoustic wave equation (seismic modelling notebook)

`pde = model.m * u.dt2 - u.laplace + model.damp * u.dt` with
`u.dt2 = (u(t+dt) - 2u(t) + u(t-dt))/dt²`,
`u.laplace` the five-point Laplacian, and the second-order (centered)
first time derivative `u.dt = (u(t+dt) - u(t-dt))/(2dt)`. -/

/-- Left-hand side of the discretized acoustic wave equation
`m*u.dt2 - u.laplace + damp*u.dt`, as a function of the forward value `uF`,
current value `uC`, previous value `uP` and the four spatial neighbours. -/
def wavePde (m damp dt hx hy uF uC uP uLx uRx uLy uRy : ℚ) : ℚ :=
  m * ((uF - 2 * uC + uP) / dt ^ 2)
    - ((uRx - 2 * uC + uLx) / hx ^ 2 + (uRy - 2 * uC + uLy) / hy ^ 2)
    + damp * ((uF - uP) / (2 * dt))

/-- Coefficient of the forward unknown in the discretized wave equation. -/
def waveDen (m damp dt : ℚ) : ℚ :=
  m / dt ^ 2 + damp / (2 * dt)

/-- The part of the discretized wave equation not involving the forward
unknown, negated (the numerator of the solved stencil). -/
def waveNum (m damp dt hx hy uC uP uLx uRx uLy uRy : ℚ) : ℚ :=
  m * (2 * uC - uP) / dt ^ 2 + damp * uP / (2 * dt)
    + (uRx - 2 * uC + uLx) / hx ^ 2 + (uRy - 2 * uC + uLy) / hy ^ 2

/-- The stencil obtained by solving `wavePde = 0` for the forward value
(`stencil = Eq(u.forward, solve(pde, u.forward)[0])` in the notebook). -/
def waveStencil (m damp dt hx hy uC uP uLx uRx uLy uRy : ℚ) : ℚ :=
  waveNum m damp dt hx hy uC uP uLx uRx uLy uRy / waveDen m damp dt

/-! ## Interpolation kernel for off-grid sources and receivers

Modelled from the spec: the external framework's `src.inject` /
`rec.interpolate` pair uses a local interpolation kernel over the
enclosing grid cell; per the spec's design note the 1-D kernel is linear,
and injection and sampling use the same kernel. -/

/-- Fractional offset of a (grid-unit) coordinate within its cell. -/
def fract (p : ℚ) : ℚ := p - Int.floor p

/-- Modelled from the spec: the linear interpolation weight of grid node
`i` for a point at coordinate `p` — nonzero only on the two nodes of the
enclosing cell. -/
def weight (p : ℚ) (i : ℤ) : ℚ :=
  if i = Int.floor p then 1 - fract p
  else if i = Int.floor p + 1 then fract p
  else 0

/-- Modelled from the spec: `src.inject` — additively distribute amplitude
`a` at coordinate `p` onto the grid nodes of the enclosing cell. -/
def inject (p a : ℚ) (u : ℤ → ℚ) : ℤ → ℚ :=
  fun i => u i + a * weight p i

/-- Modelled from the spec: `rec.interpolate` — sample the field at
coordinate `p` using the same kernel weights as injection. -/
def interp (p : ℚ) (u : ℤ → ℚ) : ℚ :=
  weight p (Int.floor p) * u (Int.floor p)
    + weight p (Int.floor p + 1) * u (Int.floor p + 1)

/-- The kernel's self-weight at offset `fract p`: the sum of the squared
cell weights. -/
def selfWeight (p : ℚ) : ℚ := (1 - fract p) ^ 2 + fract p ^ 2

/-! ## Time-marching engine

Modelled from the spec: the external framework's generated time loop for
the damped acoustic wave equation (here in its 1-D instantiation), with a
point source, point receivers, and two retained time levels.  Per
timestep, following the order of the expression list
`Operator([stencil] + src_term + rec_term)`: the stencil (which carries
the damping term of the PDE) writes the next time level, the source term
is injected additively into the next time level, the receivers sample the
next time level, and the time levels rotate. -/

structure SimConfig where
  m : ℚ
  damp : ℤ → ℚ
  dt : ℚ
  h : ℚ
  srcPos : ℚ
  srcAmp : ℕ → ℚ
  recPos : List ℚ

structure SimState where
  cur : ℤ → ℚ
  prev : ℤ → ℚ
  recData : List (List ℚ)

/-- The 1-D damped wave stencil value at point `x`: the solved forward
value of `m*u.dt2 - u.dx2 + damp*u.dt = 0` (the 1-D form of the seismic
notebook's PDE with per-point damping coefficient). -/
def stencilAt (cfg : SimConfig) (cur prev : ℤ → ℚ) (x : ℤ) : ℚ :=
  (cfg.m * (2 * cur x - prev x) / cfg.dt ^ 2 + cfg.damp x * prev x / (2 * cfg.dt)
      + (cur (x + 1) - 2 * cur x + cur (x - 1)) / cfg.h ^ 2)
    / (cfg.m / cfg.dt ^ 2 + cfg.damp x / (2 * cfg.dt))

/-- The stencil pass over the next-level buffer: assigns the solved
forward value at every point (`Eq(u.forward, stencil)` is an assignment,
so whatever the buffer held before is discarded). -/
def stencilPass (cfg : SimConfig) (cur prev : ℤ → ℚ) : (ℤ → ℚ) → ℤ → ℚ :=
  fun _buf x => stencilAt cfg cur prev x

/-- The source pass over the next-level buffer: additive injection of the
timestep-`t` source amplitude at the source coordinate. -/
def srcPass (cfg : SimConfig) (t : ℕ) : (ℤ → ℚ) → ℤ → ℚ :=
  fun buf => inject cfg.srcPos (cfg.srcAmp t) buf

/-- One timestep of the engine in the order actually executed by the
generated code (`[stencil] + src_term + rec_term`, then rotation): stencil
pass writing the next-level buffer, then additive source injection into
it, then receiver sampling from it, then rotation of time levels. -/
def codeStep (cfg : SimConfig) (t : ℕ) (s : SimState) : SimState :=
  let next := srcPass cfg t (stencilPass cfg s.cur s.prev (fun _ => 0))
  { cur := next
    prev := s.cur
    recData := s.recData ++ [cfg.recPos.map (fun p => interp p next)] }

/-- Modelled from the spec: one timestep with the same passes in the order
the spec states — (a) inject the source contribution for timestep `t` into
the next-level buffer, (b) apply the stencil pass at all points, then
sample receivers and rotate. -/
def specOrderStep (cfg : SimConfig) (t : ℕ) (s : SimState) : SimState :=
  let next := stencilPass cfg s.cur s.prev (srcPass cfg t (fun _ => 0))
  { cur := next
    prev := s.cur
    recData := s.recData ++ [cfg.recPos.map (fun p => interp p next)] }

/-- Run the engine for `n` timesteps starting at timestep index `t`. -/
def runFrom (cfg : SimConfig) : ℕ → ℕ → SimState → SimState
  | _, 0, s => s
  | t, n + 1, s => runFrom cfg (t + 1) n (codeStep cfg t s)

/-- Run the engine for `nt` timesteps `0 … nt−1`. -/
def run (cfg : SimConfig) (nt : ℕ) (s : SimState) : SimState :=
  runFrom cfg 0 nt s

/-- The zero-initialized state: zero field at both time levels, empty
receiver record. -/
def zeroState : SimState :=
  { cur := fun _ => 0, prev := fun _ => 0, recData := [] }

/-- A small concrete configuration (unit parameters, unit-amplitude source
at coordinate 0, one receiver at coordinate 0, no damping). -/
def cfg0 : SimConfig :=
  { m := 1, damp := fun _ => 0, dt := 1, h := 1
    srcPos := 0, srcAmp := fun _ => 1, recPos := [0] }

/-- Resetting a field buffer to zero (`u0.data.fill(0.)` in the FWI
notebook). -/
def resetBuf (_b : ℤ → ℚ) : ℤ → ℚ := fun _ => 0

/-- A run of the engine from given current/previous field buffers with an
empty receiver record (the repeated-simulation workflow reuses the same
buffers across runs). -/
def runBuf (cfg : SimConfig) (nt : ℕ) (bc bp : ℤ → ℚ) : SimState :=
  run cfg nt { cur := bc, prev := bp, recData := [] }

/-- A stale (non-reset) buffer left over from a previous run: nonzero at
grid point 1. -/
def dirtyBuf : ℤ → ℚ := fun x => if x = 1 then 1 else 0

/-! ## Grid construction

Modelled from the spec: a grid axis is described by `shape` and by
`extent` or `spacing`, whichever is not given being derived through
`spacing = extent / (shape - 1)`. -/

structure GridAxis where
  shape : ℕ
  extent : ℚ
  spacing : ℚ

/-- Modelled from the spec: grid axis built from a shape and an extent
(`Grid(shape=(41), extent=(2.))`); the spacing is derived. -/
def gridFromExtent (shape : ℕ) (extent : ℚ) : GridAxis :=
  { shape := shape, extent := extent, spacing := extent / ((shape : ℚ) - 1) }

/-- Modelled from the spec: grid axis built from a shape and a spacing
(`Model(..., shape=shape, spacing=spacing, ...)`); the extent is derived. -/
def gridFromSpacing (shape : ℕ) (spacing : ℚ) : GridAxis :=
  { shape := shape, extent := spacing * ((shape : ℚ) - 1), spacing := spacing }

/-! ## Stability bound

Modelled from the spec: the model object exposes a stability-limited
timestep (`model.critical_dt`) before any run starts; for the 1-D
convection scheme the Courant number of the first-order upwind scheme
is 1, so the bound is `h / c`. -/

/-- The Courant number of the first-order upwind convection scheme. -/
def courant : ℚ := 1

/-- Modelled from the spec: the exposed stability bound on the timestep
for grid spacing `h` and wave speed `c`. -/
def criticalDt (h c : ℚ) : ℚ := courant * h / c

/-- A unit impulse initial field. -/
def delta0 : ℤ → ℚ := fun x => if x = 0 then 1 else 0

/-- A timestep violating the stability bound: twice the critical
timestep for `h = 1`, `c = 1`. -/
def unstableDt : ℚ := 2 * criticalDt 1 1

/-- The 1-D convection run at the unstable timestep, from a unit impulse
(`c = 1`, `h = 1`, `dt = unstableDt`). -/
def unstableRun (n : ℕ) : ℤ → ℚ := convRun 1 unstableDt 1 delta0 n

/-! ## FWI objective (`fwi_gradient` in the FWI notebook)

The per-shot residual is `smooth_d - true_d` (synthetic data from the
input model minus data modelled with the true model) and the accumulated
objective is `objective += .5*np.linalg.norm(residual.data.flatten()**2)`.
The notebook's floating-point Euclidean norm is embedded as the exact real
square root of the sum of squares. -/

/-- Sum of squares of a list of rationals (`np.linalg.norm(v)` squared). -/
def sumSq (v : List ℚ) : ℚ := (v.map fun x => x * x).sum

/-- Sum of fourth powers of a list of rationals. -/
def sumPow4 (v : List ℚ) : ℚ := (v.map fun x => x ^ 4).sum

/-- The residual of one shot: synthetic data from the input model minus
data modelled with the true model
(`residual.data[:] = smooth_d.data[:] - true_d.data[:]`). -/
def shotResidual (smooth trued : List ℚ) : List ℚ :=
  List.zipWith (fun a b => a - b) smooth trued

/-- `np.linalg.norm(v)`: the Euclidean norm of a flat vector. -/
noncomputable def npNorm (v : List ℚ) : ℝ := Real.sqrt ((sumSq v : ℚ) : ℝ)

/-- One shot's contribution to the objective:
`.5*np.linalg.norm(residual.data.flatten()**2)` — note the norm is taken
of the elementwise-squared residual. -/
noncomputable def shotObjective (r : List ℚ) : ℝ :=
  (1 / 2 : ℝ) * npNorm (r.map fun x => x * x)

/-- The objective accumulated by `fwi_gradient` over the shots, each shot
given as the pair (data from the input model, data from the true model). -/
noncomputable def fwiObjective (shots : List (List ℚ × List ℚ)) : ℝ :=
  (shots.map fun sd => shotObjective (shotResidual sd.1 sd.2)).sum

/-! ## Helper lemmas -/

/-- The discretized wave equation is linear in the forward unknown, with
coefficient `waveDen` and constant part `-waveNum`. -/
theorem wavePde_linear (m damp dt hx hy uF uC uP uLx uRx uLy uRy : ℚ) :
    wavePde m damp dt hx hy uF uC uP uLx uRx uLy uRy =
      waveDen m damp dt * uF - waveNum m damp dt hx hy uC uP uLx uRx uLy uRy := by
  unfold wavePde waveDen waveNum
  ring

theorem weight_floor (p : ℚ) : weight p (Int.floor p) = 1 - fract p := by
  unfold weight
  simp

theorem weight_floor_succ (p : ℚ) : weight p (Int.floor p + 1) = fract p := by
  unfold weight
  rw [if_neg (by omega), if_pos rfl]

/-! ## Claim C4 -/

/-- C4: for each of the repository's discretized PDEs (1-D convection,
2-D convection, 2-D damped acoustic wave), substituting the derived stencil
for the future unknown satisfies the discretized equation identically, and
the stencil is the unique such solution (given nonzero timestep, spacings,
and a nonzero leading coefficient for the wave equation). -/
theorem stencil_solves_pde (c m damp dt hx hy uC uP uLx uRx uLy uRy : ℚ)
    (hdt : dt ≠ 0) (hhx : hx ≠ 0) (hhy : hy ≠ 0)
    (hA : waveDen m damp dt ≠ 0) :
    convPde c dt hx (convStencil c dt hx uC uLx) uC uLx = 0 ∧
    conv2Pde c dt hx hy (conv2Stencil c dt hx hy uC uLx uLy) uC uLx uLy = 0 ∧
    wavePde m damp dt hx hy
      (waveStencil m damp dt hx hy uC uP uLx uRx uLy uRy)
      uC uP uLx uRx uLy uRy = 0 ∧
    (∀ uF : ℚ, wavePde m damp dt hx hy uF uC uP uLx uRx uLy uRy = 0 →
      uF = waveStencil m damp dt hx hy uC uP uLx uRx uLy uRy) := by
  refine ⟨?_, ?_, ?_, ?_⟩
  · unfold convPde convStencil
    field_simp
    ring
  · unfold conv2Pde conv2Stencil
    field_simp
    ring
  · rw [wavePde_linear]
    unfold waveStencil
    rw [mul_comm, div_mul_cancel₀ _ hA, sub_self]
  · intro uF hF
    rw [wavePde_linear] at hF
    unfold waveStencil
    rw [eq_div_iff hA]
    linarith [hF]

/-- Witness for C4 at concrete parameters
(`c = 1, m = 1, damp = 0, dt = 1/40, hx = hy = 1/20`, field values 1..6). -/
theorem stencil_solves_pde_witness :
    convPde 1 (1/40) (1/20) (convStencil 1 (1/40) (1/20) 1 3) 1 3 = 0 := by
  have h := stencil_solves_pde 1 1 0 (1/40) (1/20) (1/20) 1 2 3 4 5 6
    (by norm_num) (by norm_num) (by norm_num) (by norm_num [waveDen])
  exact h.1

/-! ## Claim C6 -/

/-- C6: source injection and receiver interpolation use the same linear
kernel; injecting amplitude `a` at coordinate `p` into a zero field and
sampling at the same `p` returns `a` scaled by the kernel's self-weight at
`p`'s offset within its cell; more generally sampling after injection into
any field adds exactly `a * selfWeight p` to the sample (the sampling
operator is the transpose of the injection operator: pairing an injected
impulse against any field equals `a` times the interpolated sample). -/
theorem inject_interp_adjoint :
    (∀ p a : ℚ, interp p (inject p a (fun _ => 0)) = a * selfWeight p) ∧
    (∀ (p a : ℚ) (u : ℤ → ℚ),
      interp p (inject p a u) = interp p u + a * selfWeight p) ∧
    (∀ (p a : ℚ) (v : ℤ → ℚ),
      inject p a (fun _ => 0) (Int.floor p) * v (Int.floor p)
        + inject p a (fun _ => 0) (Int.floor p + 1) * v (Int.floor p + 1)
        = a * interp p v) := by
  have key : ∀ (p a : ℚ) (u : ℤ → ℚ),
      interp p (inject p a u) = interp p u + a * selfWeight p := by
    intro p a u
    unfold interp inject selfWeight
    rw [weight_floor, weight_floor_succ]
    ring
  refine ⟨?_, key, ?_⟩
  · intro p a
    rw [key]
    unfold interp
    ring
  · intro p a v
    unfold interp inject
    rw [weight_floor, weight_floor_succ]
    ring

/-! ## Claim C7 -/

/-- C7: injection at coordinate `p` adds the kernel-weighted amplitude to
the two grid nodes of the enclosing cell and leaves every other grid node
unchanged; it never overwrites existing field values. -/
theorem inject_additive_frame (p a : ℚ) (u : ℤ → ℚ) :
    inject p a u (Int.floor p) = u (Int.floor p) + a * (1 - fract p) ∧
    inject p a u (Int.floor p + 1) = u (Int.floor p + 1) + a * fract p ∧
    ∀ i : ℤ, i ≠ Int.floor p → i ≠ Int.floor p + 1 → inject p a u i = u i := by
  refine ⟨?_, ?_, ?_⟩
  · unfold inject
    rw [weight_floor]
  · unfold inject
    rw [weight_floor_succ]
  · intro i h1 h2
    unfold inject weight
    rw [if_neg h1, if_neg h2]
    ring

/-- Witness for C7 at `p = 3/2`, `a = 2`, the constant field 5, and the
grid node 7 (outside the enclosing cell). -/
theorem inject_additive_frame_witness :
    inject (3/2) 2 (fun _ => 5) 7 = 5 := by
  have h := inject_additive_frame (3/2) 2 (fun _ => 5)
  exact h.2.2 7 (by norm_num) (by norm_num)

/-! ## Claim C1 -/

theorem inject_zero_amp (p : ℚ) (u : ℤ → ℚ) : inject p 0 u = u := by
  funext i
  simp [inject]

theorem stencilAt_zero (cfg : SimConfig) (x : ℤ) :
    stencilAt cfg (fun _ => 0) (fun _ => 0) x = 0 := by
  simp [stencilAt]

theorem codeStep_zero (cfg : SimConfig) (t : ℕ) (s : SimState)
    (hamp : cfg.srcAmp t = 0)
    (hc : s.cur = fun _ => 0) (hp : s.prev = fun _ => 0) :
    (codeStep cfg t s).cur = (fun _ => 0) ∧
    (codeStep cfg t s).prev = (fun _ => 0) := by
  constructor
  · show srcPass cfg t (stencilPass cfg s.cur s.prev fun _ => 0) = _
    rw [hc, hp]
    unfold srcPass stencilPass
    rw [hamp, inject_zero_amp]
    funext x
    exact stencilAt_zero cfg x
  · exact hc

theorem runFrom_zero (cfg : SimConfig) (hsrc : ∀ t, cfg.srcAmp t = 0) :
    ∀ (n t : ℕ) (s : SimState),
      s.cur = (fun _ => 0) → s.prev = (fun _ => 0) →
      (runFrom cfg t n s).cur = (fun _ => 0) ∧
      (runFrom cfg t n s).prev = (fun _ => 0) := by
  intro n
  induction n with
  | zero => intro t s hc hp; exact ⟨hc, hp⟩
  | succ n ih =>
      intro t s hc hp
      have h := codeStep_zero cfg t s (hsrc t) hc hp
      simp only [runFrom]
      exact ih (t + 1) (codeStep cfg t s) h.1 h.2

/-- C1: with zero initial conditions and no source, the field stays exactly
zero at every grid point and both retained time levels after any number of
timesteps, both for the engine's damped-wave stencil and for the 1-D
convection update (the discretized PDEs are homogeneous). -/
theorem zero_field_invariant :
    (∀ (cfg : SimConfig) (nt : ℕ), (∀ t, cfg.srcAmp t = 0) →
      ∀ x : ℤ, (run cfg nt zeroState).cur x = 0 ∧
               (run cfg nt zeroState).prev x = 0) ∧
    (∀ (c dt h : ℚ) (nt : ℕ) (x : ℤ), convRun c dt h (fun _ => 0) nt x = 0) := by
  constructor
  · intro cfg nt hsrc x
    have h := runFrom_zero cfg hsrc nt 0 zeroState rfl rfl
    unfold run
    exact ⟨congrFun h.1 x, congrFun h.2 x⟩
  · intro c dt h nt x
    induction nt generalizing x with
    | zero => rfl
    | succ n ih => simp [convRun, convStep, convStencil, ih]

/-- A configuration identical to `cfg0` but with a zero source signature. -/
def cfgNoSrc : SimConfig :=
  { m := 1, damp := fun _ => 0, dt := 1, h := 1
    srcPos := 0, srcAmp := fun _ => 0, recPos := [0] }

/-- Witness for C1: three timesteps of the source-free configuration leave
grid point 5 at zero. -/
theorem zero_field_invariant_witness :
    (run cfgNoSrc 3 zeroState).cur 5 = 0 :=
  (zero_field_invariant.1 cfgNoSrc 3 (fun _ => rfl) 5).1

/-! ## Claim C3 -/

theorem runFrom_recData_length (cfg : SimConfig) :
    ∀ (n t : ℕ) (s : SimState),
      (runFrom cfg t n s).recData.length = s.recData.length + n := by
  intro n
  induction n with
  | zero => intro t s; rfl
  | succ n ih =>
      intro t s
      simp only [runFrom]
      rw [ih (t + 1) (codeStep cfg t s)]
      simp only [codeStep, List.length_append, List.length_singleton]
      omega

theorem runFrom_recData_rows (cfg : SimConfig) :
    ∀ (n t : ℕ) (s : SimState),
      (∀ row ∈ s.recData, row.length = cfg.recPos.length) →
      ∀ row ∈ (runFrom cfg t n s).recData, row.length = cfg.recPos.length := by
  intro n
  induction n with
  | zero => intro t s hs; exact hs
  | succ n ih =>
      intro t s hs
      simp only [runFrom]
      apply ih
      intro row hrow
      simp only [codeStep, List.mem_append, List.mem_singleton] at hrow
      rcases hrow with h | h
      · exact hs row h
      · simp [h]

/-- C3: after running `nt` timesteps, the receiver record holds exactly
`nt` rows (one per timestep, appended in timestep order) and every row
holds one scalar sample per configured receiver. -/
theorem receiver_series_length (cfg : SimConfig) (nt : ℕ) :
    (run cfg nt zeroState).recData.length = nt ∧
    (run cfg nt zeroState).recData.all
      (fun row => row.length == cfg.recPos.length) = true := by
  constructor
  · unfold run
    rw [runFrom_recData_length]
    simp [zeroState]
  · rw [List.all_eq_true]
    intro row hrow
    rw [beq_iff_eq]
    exact runFrom_recData_rows cfg nt 0 zeroState (by intro r hr; cases hr) row hrow

/-! ## Claim C2 -/

/-- Counterexample for C2: the claimed order (inject first, then stencil
update) does not describe the engine: with a unit source and one receiver
on a zero field, one timestep of the engine differs from one timestep in
the claimed order — the stencil pass assigns the next-level field, so
injecting before it loses the source, while the engine injects after it. -/
theorem step_order_counterexample :
    codeStep cfg0 0 zeroState ≠ specOrderStep cfg0 0 zeroState := by
  intro h
  have hrec := congrArg SimState.recData h
  simp [codeStep, specOrderStep, cfg0, zeroState, srcPass, stencilPass,
    stencilAt, inject, interp, weight, fract] at hrec

/-- C2 (amended): per timestep the engine first applies the stencil update
(which carries the damping term of the PDE) writing the next-level field,
then adds the source contribution for timestep `t` on top of the stencil
result, then samples the receivers from the updated next-level field, and
finally rotates time levels (appending the receiver row in timestep
order). -/
theorem step_order_amended (cfg : SimConfig) (t : ℕ) (s : SimState) :
    (codeStep cfg t s).cur =
      srcPass cfg t (stencilPass cfg s.cur s.prev (fun _ => 0)) ∧
    (∀ x : ℤ, (codeStep cfg t s).cur x =
      stencilAt cfg s.cur s.prev x + cfg.srcAmp t * weight cfg.srcPos x) ∧
    (codeStep cfg t s).prev = s.cur ∧
    (codeStep cfg t s).recData = s.recData ++
      [cfg.recPos.map (fun p => interp p ((codeStep cfg t s).cur))] := by
  refine ⟨rfl, ?_, rfl, rfl⟩
  intro x
  rfl

/-! ## Claim C8 -/

/-- C8: the run is a pure function of the configuration and the field
buffers, so two runs from reset (zeroed) buffers produce identical outputs
regardless of the buffers' prior contents; and a run from a non-reset
buffer incorporates the stale state — at a concrete configuration the
receiver data of the dirty-buffer run differs from the reset-buffer run. -/
theorem reset_no_stale_state :
    (∀ (cfg : SimConfig) (nt : ℕ) (b1c b1p b2c b2p : ℤ → ℚ),
      runBuf cfg nt (resetBuf b1c) (resetBuf b1p) =
        runBuf cfg nt (resetBuf b2c) (resetBuf b2p)) ∧
    (runBuf cfg0 1 dirtyBuf (resetBuf dirtyBuf)).recData ≠
      (runBuf cfg0 1 (resetBuf dirtyBuf) (resetBuf dirtyBuf)).recData := by
  constructor
  · intro cfg nt b1c b1p b2c b2p
    rfl
  · intro h
    simp [runBuf, run, runFrom, codeStep, cfg0, dirtyBuf, resetBuf, srcPass,
      stencilPass, stencilAt, inject, interp, weight, fract] at h

/-! ## Claim C5 -/

/-- C5: for any axis with at least two grid points, the constructed grid
axis satisfies `spacing = extent / (shape - 1)`, whether the axis is built
from an extent (spacing derived) or from a spacing (extent derived). -/
theorem grid_spacing_invariant (shape : ℕ) (extent spacing : ℚ)
    (h2 : 2 ≤ shape) :
    (gridFromExtent shape extent).spacing =
      (gridFromExtent shape extent).extent /
        (((gridFromExtent shape extent).shape : ℚ) - 1) ∧
    (gridFromSpacing shape spacing).spacing =
      (gridFromSpacing shape spacing).extent /
        (((gridFromSpacing shape spacing).shape : ℚ) - 1) := by
  have hc : (2 : ℚ) ≤ (shape : ℚ) := by exact_mod_cast h2
  have hne : ((shape : ℚ) - 1) ≠ 0 := by
    intro h
    linarith
  constructor
  · rfl
  · show spacing = spacing * ((shape : ℚ) - 1) / ((shape : ℚ) - 1)
    rw [mul_div_cancel_right₀ _ hne]

/-- Witness for C5: the 1-D convection notebook's grid,
`Grid(shape=(41), extent=(2.))`. -/
theorem grid_spacing_invariant_witness :
    (gridFromExtent 41 2).spacing =
      (gridFromExtent 41 2).extent / (((gridFromExtent 41 2).shape : ℚ) - 1) :=
  (grid_spacing_invariant 41 2 (1/20) (by norm_num)).1

/-! ## Claim C9 -/

theorem unstableRun_right : ∀ (n : ℕ) (x : ℤ), (n : ℤ) < x → unstableRun n x = 0 := by
  intro n
  induction n with
  | zero =>
      intro x hx
      have hne : x ≠ 0 := by omega
      simp [unstableRun, convRun, delta0, hne]
  | succ n ih =>
      intro x hx
      have hx1 : (n : ℤ) < x := by push_cast at hx; omega
      have hx2 : (n : ℤ) < x - 1 := by push_cast at hx; omega
      have h1 : unstableRun n x = 0 := ih x hx1
      have h2 : unstableRun n (x - 1) = 0 := ih (x - 1) hx2
      have hstep : unstableRun (n + 1) x
          = convStep 1 unstableDt 1 (unstableRun n) x := rfl
      rw [hstep]
      simp [convStep, convStencil, h1, h2]

theorem unstableRun_diag : ∀ n : ℕ, unstableRun n (n : ℤ) = 2 ^ n := by
  intro n
  induction n with
  | zero => simp [unstableRun, convRun, delta0]
  | succ n ih =>
      have hc : ((n + 1 : ℕ) : ℤ) = (n : ℤ) + 1 := by push_cast; ring
      have hstep : unstableRun (n + 1) ((n : ℤ) + 1)
          = convStep 1 unstableDt 1 (unstableRun n) ((n : ℤ) + 1) := rfl
      have h0 : unstableRun n ((n : ℤ) + 1) = 0 :=
        unstableRun_right n ((n : ℤ) + 1) (by omega)
      have hidx : (n : ℤ) + 1 - 1 = (n : ℤ) := by ring
      rw [hc, hstep]
      simp only [convStep, convStencil, h0, hidx, ih]
      rw [pow_succ]
      norm_num [unstableDt, criticalDt, courant]
      ring

/-- C9: the stability bound is exposed as a computed quantity before any
run: it equals the Courant constant times `h / c`; any timestep at or
below it keeps the 1-D convection update bounded (no amplitude growth);
and at twice the bound the run from a unit impulse reaches the value `2^n`
at grid point `n` after `n` steps, so the field values grow beyond every
bound (the exact-arithmetic counterpart of producing non-finite
floating-point values detectable post hoc). -/
theorem critical_dt_stability :
    (∀ h c : ℚ, criticalDt h c = courant * (h / c)) ∧
    (∀ (c dt h B : ℚ) (u : ℤ → ℚ),
      0 < c → 0 < dt → 0 < h → dt ≤ criticalDt h c →
      (∀ x : ℤ, |u x| ≤ B) → ∀ x : ℤ, |convStep c dt h u x| ≤ B) ∧
    (∀ n : ℕ, unstableRun n (n : ℤ) = 2 ^ n) ∧
    (∀ B : ℚ, ∃ n : ℕ, B < unstableRun n (n : ℤ)) := by
  refine ⟨?_, ?_, unstableRun_diag, ?_⟩
  · intro h c
    rw [criticalDt, mul_div_assoc]
  · intro c dt h B u hc hdt hh hbound hu x
    have hν0 : 0 ≤ c * dt / h := by positivity
    have hν1 : c * dt / h ≤ 1 := by
      rw [div_le_one hh]
      have hb : c * dt ≤ c * (courant * h / c) :=
        mul_le_mul_of_nonneg_left hbound (le_of_lt hc)
      calc c * dt ≤ c * (courant * h / c) := hb
        _ = h := by
            rw [courant]
            field_simp
    have hrw : convStep c dt h u x
        = (1 - c * dt / h) * u x + (c * dt / h) * u (x - 1) := by
      simp only [convStep, convStencil]
      ring
    rw [hrw]
    calc |(1 - c * dt / h) * u x + (c * dt / h) * u (x - 1)|
        ≤ |(1 - c * dt / h) * u x| + |(c * dt / h) * u (x - 1)| := abs_add _ _
      _ = (1 - c * dt / h) * |u x| + (c * dt / h) * |u (x - 1)| := by
          rw [abs_mul, abs_mul, abs_of_nonneg (by linarith), abs_of_nonneg hν0]
      _ ≤ (1 - c * dt / h) * B + (c * dt / h) * B := by
          have g1 := mul_le_mul_of_nonneg_left (hu x)
            (by linarith : (0:ℚ) ≤ 1 - c * dt / h)
          have g2 := mul_le_mul_of_nonneg_left (hu (x - 1)) hν0
          linarith
      _ = B := by ring
  · intro B
    obtain ⟨n, hn⟩ := pow_unbounded_of_one_lt B (by norm_num : (1:ℚ) < 2)
    exact ⟨n, by rw [unstableRun_diag]; exact hn⟩

/-- Witness for C9: the stable-timestep bound applied at `c = 1`,
`dt = 1/2`, `h = 1` to the constant field 1 at grid point 0. -/
theorem critical_dt_stability_witness :
    |convStep 1 (1/2) 1 (fun _ => 1) 0| ≤ 1 :=
  critical_dt_stability.2.1 1 (1/2) 1 1 (fun _ => 1) (by norm_num) (by norm_num)
    (by norm_num) (by norm_num [criticalDt, courant]) (fun _ => by norm_num) 0

/-! ## Claim C10 -/

theorem sumSq_map_sq (r : List ℚ) : sumSq (r.map fun x => x * x) = sumPow4 r := by
  induction r with
  | nil => rfl
  | cons a l ih =>
      simp only [List.map_cons, sumSq, sumPow4, List.sum_cons] at ih ⊢
      rw [ih]
      ring

theorem shotObjective_eq (r : List ℚ) :
    shotObjective r = (1 / 2 : ℝ) * Real.sqrt ((sumPow4 r : ℚ) : ℝ) := by
  unfold shotObjective npNorm
  rw [sumSq_map_sq]

/-- C10: the objective accumulated by `fwi_gradient` is, per shot, one half
of the Euclidean norm of the elementwise-squared residual — that is,
`0.5 * sqrt(Σ residual⁴)` — and not the conventional half squared L2 norm
`0.5 * Σ residual²`, from which it differs already at the residual
`[1, 1]`. -/
theorem fwi_objective_formula :
    (∀ shots : List (List ℚ × List ℚ),
      fwiObjective shots =
        (shots.map fun sd =>
          (1 / 2 : ℝ) *
            Real.sqrt ((sumPow4 (shotResidual sd.1 sd.2) : ℚ) : ℝ)).sum) ∧
    shotObjective [1, 1] ≠ (1 / 2 : ℝ) * ((sumSq [1, 1] : ℚ) : ℝ) := by
  constructor
  · intro shots
    unfold fwiObjective
    simp only [shotObjective_eq]
  · rw [shotObjective_eq]
    have h4 : (sumPow4 [1, 1] : ℚ) = 2 := by norm_num [sumPow4]
    have h2 : (sumSq [1, 1] : ℚ) = 2 := by norm_num [sumSq]
    rw [h4, h2]
    intro h
    have hs : Real.sqrt ((2:ℚ) : ℝ) = ((2:ℚ) : ℝ) :=
      mul_left_cancel₀ (by norm_num : (1/2 : ℝ) ≠ 0) h
    have hcast : (((2:ℚ)) : ℝ) = (2 : ℝ) := by norm_num
    rw [hcast] at hs
    have hsq := Real.sq_sqrt (by norm_num : (0:ℝ) ≤ 2)
    rw [hs] at hsq
    norm_num at hsq
